import Mathlib

/-!
Verification of the paperboy RSS aggregator (`main.go`) against its
natural-language specification.

The development shallowly embeds the program: pure Go functions become Lean
functions on `String` / `List Char` / `Int`; the in-place mutations of
`main`'s aggregation loop and of `generateMarkdown`'s per-bucket sort become
explicit state passing; fatal exits (`log.Fatalf`) and runtime faults (nil
dereference) become `Option` results.  External collaborators (`time`,
`net/url`, `regexp`, `strings`, `slices`, `fmt`) are embedded by their
documented behaviour, restricted to the call sites the program uses.
-/

namespace Paperboy

/-! ## Characters and Go string helpers -/

/-- The whitespace characters trimmed by Go's `strings.TrimSpace`
(`unicode.IsSpace`), restricted to the Latin-1 range; the exotic Unicode
space code points (U+2000 etc.) are not modelled. -/
def isGoSpace (c : Char) : Bool :=
  c = ' ' || c = '\t' || c = '\n' || c = '\x0b' || c = '\x0c' || c = '\r' ||
  c = '\u0085' || c = '\u00A0'

/-- `strings.TrimSpace` on the character list: drop spaces from both ends. -/
def trimChars (cs : List Char) : List Char :=
  ((cs.dropWhile isGoSpace).reverse.dropWhile isGoSpace).reverse

/-- Embedding of Go `strings.TrimSpace`. -/
def trimSpace (s : String) : String := ⟨trimChars s.data⟩

/-- `pat` is a prefix of `cs` (Go `strings.HasPrefix` on byte/char lists). -/
def strStartsWith : List Char → List Char → Bool
  | [], _ => true
  | _ :: _, [] => false
  | p :: ps, c :: cs => p = c && strStartsWith ps cs

/-- Go `strings.HasPrefix s pat`. -/
def goStartsWith (s pat : String) : Bool := strStartsWith pat.data s.data

/-- Go byte-wise string comparison `a < b`, on characters (identical to the
byte order for ASCII data such as the week keys this program sorts). -/
def charListLt : List Char → List Char → Bool
  | [], [] => false
  | [], _ :: _ => true
  | _ :: _, [] => false
  | a :: as, b :: bs => if a < b then true else if b < a then false else charListLt as bs

/-- Go string order `a < b` as used by `sort.Strings`. -/
def goStringLt (a b : String) : Bool := charListLt a.data b.data

/-- `a ≤ b` in Go string order (total order: `¬ (b < a)`). -/
def goStringLe (a b : String) : Prop := goStringLt b a = false

instance : DecidableRel goStringLe := fun a b => by
  unfold goStringLe; infer_instance

/-! ## Decimal rendering (`fmt.Sprintf` verbs `%d` and `%02d`) -/

/-- The ASCII digit character for `n < 10`. -/
def digitChar (n : Nat) : Char := Char.ofNat (48 + n)

/-- Decimal digits of `n`, most significant first (fuel-driven so that it is
structural and kernel-reducible). -/
def natDigitsAux : Nat → Nat → List Char
  | 0, _ => []
  | fuel + 1, n =>
    if n < 10 then [digitChar n]
    else natDigitsAux fuel (n / 10) ++ [digitChar (n % 10)]

/-- Decimal digit characters of a natural number (`fmt` verb `%d`). -/
def natDigits (n : Nat) : List Char := natDigitsAux (n + 1) n

/-- `fmt` verb `%d` for integers. -/
def intChars (i : Int) : List Char :=
  if i < 0 then '-' :: natDigits (-i).toNat else natDigits i.toNat

/-- Left-pad the decimal digits of `n` with zeros to width `w`
(`fmt` verb `%0wd`, and Go `time` layout fields `2006`, `01`, `02`). -/
def padNat (w n : Nat) : List Char :=
  List.replicate (w - (natDigits n).length) '0' ++ natDigits n

/-! ## Calendar collaborator (Go `time` package)

Go represents an instant by seconds plus nanoseconds and converts to a
proleptic Gregorian calendar date in UTC.  The embedding counts days since
the Unix epoch 1970-01-01 (a Thursday) and converts days to and from civil
dates with the standard era-based algorithms; `time.Time.ISOWeek` is
embedded below following Go's own algorithm (shift to the Thursday of the
week, then take that day's year and day-of-year). -/

/-- A Go `time.Time` instant (already in UTC): Unix seconds and the
sub-second nanosecond part, as produced by the feed parser. -/
structure GoTime where
  unix : Int
  nsec : Nat
deriving DecidableEq, Repr

/-- The civil (proleptic Gregorian) calendar day holding a given instant:
floor of seconds since the epoch divided by 86400. -/
def dayOfUnix (sec : Int) : Int := sec / 86400

/-- Civil date. -/
structure CivilDate where
  year : Int
  month : Nat
  day : Nat
deriving DecidableEq, Repr

/-- Days since 1970-01-01 of a civil date (era-based conversion used as the
model of Go's `time` date arithmetic). -/
def civilToDays (y : Int) (m d : Nat) : Int :=
  let y' : Int := if m ≤ 2 then y - 1 else y
  let era : Int := y' / 400
  let yoe : Nat := (y' - era * 400).toNat
  let mp : Nat := if 2 < m then m - 3 else m + 9
  let doy : Nat := (153 * mp + 2) / 5 + d - 1
  let doe : Nat := yoe * 365 + yoe / 4 - yoe / 100 + doy
  era * 146097 + (doe : Int) - 719468

/-- Civil date of a day count since 1970-01-01 (inverse conversion, same
model). -/
def daysToCivil (z : Int) : CivilDate :=
  let z' : Int := z + 719468
  let era : Int := z' / 146097
  let doe : Nat := (z' - era * 146097).toNat
  let yoe : Nat := (doe - doe / 1460 + doe / 36524 - doe / 146096) / 365
  let y : Int := yoe + era * 400
  let doy : Nat := doe - (365 * yoe + yoe / 4 - yoe / 100)
  let mp : Nat := (5 * doy + 2) / 153
  let d : Nat := doy - (153 * mp + 2) / 5 + 1
  let m : Nat := if mp < 10 then mp + 3 else mp - 9
  if m ≤ 2 then ⟨y + 1, m, d⟩ else ⟨y, m, d⟩

/-- Day of year (0-based): days elapsed since January 1 of the day's own
year, as Go's `absDate` yields alongside the date. -/
def ydayOfDay (z : Int) : Int := z - civilToDays (daysToCivil z).year 1 1

/-- Go `absWeekday`: day of week with Sunday = 0 (1970-01-01 is a
Thursday, value 4). -/
def goWeekday (z : Int) : Int := (z + 4) % 7

/-- The Thursday of the week containing `z`, as computed by Go's
`time.Time.ISOWeek`: offset `Thursday - weekday`, with Sunday mapped to
the preceding Thursday. -/
def goThursday (z : Int) : Int :=
  let d : Int := if 4 - goWeekday z = 4 then -3 else 4 - goWeekday z
  z + d

/-- Embedding of Go `time.Time.ISOWeek` on a day count: the ISO year is the
calendar year of the week's Thursday, and the week number is that day's
day-of-year divided by 7, plus one. -/
def isoWeekOfDay (z : Int) : Int × Nat :=
  let thu := goThursday z
  ((daysToCivil thu).year, (ydayOfDay thu).toNat / 7 + 1)

/-- The week key `fmt.Sprintf("%d-%02d", year, week)` computed by `main`
for a given day. -/
def weekKeyOfDay (z : Int) : String :=
  ⟨intChars (isoWeekOfDay z).1 ++ '-' :: padNat 2 (isoWeekOfDay z).2⟩

/-- The week key of an article's publish instant
(`article.PublishAt.UTC().ISOWeek()` formatted as `YYYY-WW`). -/
def weekKeyOf (t : GoTime) : String := weekKeyOfDay (dayOfUnix t.unix)

/-! ### Spec-side ISO week definition

Modelled from the spec's words (GLOSSARY and §4.3): weeks start Monday;
week 1 of a year is the week containing the year's first Thursday; a week
belongs to the year containing its Thursday; the week number counts weeks
elapsed since week 1. -/

/-- Day of week with Monday = 0 (spec: "weeks start Monday"). -/
def isoWeekdayS (z : Int) : Int := (z + 3) % 7

/-- The Monday starting the week that contains `z`. -/
def mondayOfWeek (z : Int) : Int := z - isoWeekdayS z

/-- Spec-side ISO year of a day: the calendar year containing the week's
Thursday (the week's majority year). -/
def isoYearS (z : Int) : Int := (daysToCivil (mondayOfWeek z + 3)).year

/-- The first Thursday on or after January 1 of year `y` — the Thursday of
the spec's week 1. -/
def firstThursdayS (y : Int) : Int :=
  let j := civilToDays y 1 1
  j + (3 - isoWeekdayS j) % 7

/-- Spec-side ISO week number: one plus the number of whole weeks between
the week-1 Thursday and this week's Thursday. -/
def isoWeekNumS (z : Int) : Nat :=
  (((mondayOfWeek z + 3) - firstThursdayS (isoYearS z)) / 7 + 1).toNat

/-- Spec-side week key: ISO year and zero-padded ISO week joined as
`YYYY-WW`. -/
def weekKeySpec (z : Int) : String :=
  ⟨intChars (isoYearS z) ++ '-' :: padNat 2 (isoWeekNumS z)⟩

/-! ## Domain pattern collaborator

`getURLDomain` ends with a `FindString` of the compiled pattern
`([a-z0-9\-]+\.)+[a-z0-9\-]+`.
Go's `regexp` uses leftmost-first (Perl-style greedy) semantics; for this
pattern the match at a position is the maximal chain
`label ('.' label)+` of nonempty lowercase/digit/hyphen labels, and
`FindString` returns the match at the leftmost position admitting one, or
the empty string. -/

/-- Character class `[a-z0-9-]` of the domain pattern. -/
def isLabelChar (c : Char) : Bool :=
  ('a' ≤ c && c ≤ 'z') || ('0' ≤ c && c ≤ '9') || c = '-'

/-- Greedy continuation of a label chain: consumes as many `'.' label`
units (nonempty labels) as possible.  Fuel-driven structural recursion;
`fuel` at least the number of remaining units suffices. -/
def chainExt : Nat → List Char → List Char
  | 0, _ => []
  | fuel + 1, cs =>
    match cs with
    | '.' :: r =>
      let l2 := r.takeWhile isLabelChar
      if l2.isEmpty then []
      else ('.' :: l2) ++ chainExt fuel (r.dropWhile isLabelChar)
    | _ => []

/-- The match of the domain pattern starting exactly at the head of `cs`,
if any: a maximal chain of two or more labels separated by dots. -/
def matchAt (cs : List Char) : Option (List Char) :=
  let l0 := cs.takeWhile isLabelChar
  if l0.isEmpty then none
  else
    let ext := chainExt cs.length (cs.dropWhile isLabelChar)
    if ext.isEmpty then none else some (l0 ++ ext)

/-- Scan positions left to right for the first match of the domain
pattern. -/
def findAux : List Char → Option (List Char)
  | [] => none
  | c :: rest =>
    match matchAt (c :: rest) with
    | some m => some m
    | none => findAux rest

/-- `FindString` of the domain pattern: leftmost match, or `""`. -/
def findDomain (s : String) : String :=
  match findAux s.data with
  | some m => ⟨m⟩
  | none => ""

/-! ## URL parsing collaborator (`net/url.Parse`)

Model of the host-relevant behaviour of Go's `url.Parse`, with these
restrictions: percent-escapes and bracketed (IPv6) hosts are treated as
parse errors, control characters are not checked, and userinfo characters
are not validated.  A parse error yields `none`; Go's `url.Parse` then
returns a nil pointer, so the caller's `read.Host` is a nil dereference. -/

/-- Scheme characters after the first: `[a-zA-Z0-9+\-.]`. -/
def isSchemeTail (c : Char) : Bool :=
  ('a' ≤ c && c ≤ 'z') || ('A' ≤ c && c ≤ 'Z') ||
  ('0' ≤ c && c ≤ '9') || c = '+' || c = '-' || c = '.'

/-- First scheme character: a letter. -/
def isSchemeHead (c : Char) : Bool :=
  ('a' ≤ c && c ≤ 'z') || ('A' ≤ c && c ≤ 'Z')

/-- Go `getScheme`: `none` is the fatal "missing protocol scheme" error;
`some none` means no scheme (the whole input is the remainder);
`some (some rest)` strips a valid `scheme:` marker.  `seen` holds the
scheme characters consumed so far. -/
def getSchemeAux : List Char → List Char → Option (Option (List Char))
  | _, [] => some none
  | seen, c :: cs =>
    if c = ':' then
      if seen.isEmpty then none else some (some cs)
    else if isSchemeHead c then getSchemeAux (c :: seen) cs
    else if isSchemeTail c then
      if seen.isEmpty then some none else getSchemeAux (c :: seen) cs
    else some none

/-- Characters Go's `url.Parse` accepts unescaped inside a host
(`shouldEscape(c, encodeHost) == false`), plus all non-ASCII. -/
def isHostChar (c : Char) : Bool :=
  ('a' ≤ c && c ≤ 'z') || ('A' ≤ c && c ≤ 'Z') || ('0' ≤ c && c ≤ '9') ||
  c = '-' || c = '_' || c = '.' || c = '~' || c = '!' || c = '$' ||
  c = '&' || c = '\'' || c = '(' || c = ')' || c = '*' || c = '+' ||
  c = ',' || c = ';' || c = '=' || c = ':' || c = '[' || c = ']' ||
  c = '<' || c = '>' || c = '"' || 128 ≤ c.toNat

/-- Drop a `userinfo@` part: keep everything after the last `'@'`. -/
def afterLastAt (cs : List Char) : List Char :=
  match cs.reverse.takeWhile (fun c => c ≠ '@') with
  | r => r.reverse

/-- Go `validOptionalPort`: empty, or `':'` followed by digits only. -/
def validOptionalPort : List Char → Bool
  | [] => true
  | ':' :: ds => ds.all fun c => '0' ≤ c && c ≤ '9'
  | _ => false

/-- Go `parseHost` (non-bracketed): validate an optional `:port` suffix and
the host characters.  Percent signs and brackets are modelled as errors. -/
def parseHost (cs : List Char) : Option (List Char) :=
  if cs.head? = some '[' then none
  else
    let beforePort := (cs.reverse.dropWhile (fun c => c ≠ ':')).reverse
    let portOk :=
      if ':' ∈ cs then
        validOptionalPort ((cs.drop (beforePort.length - 1)))
      else true
    if !portOk then none
    else if cs.all (fun c => isHostChar c && c ≠ '%') then some cs
    else none

/-- The parsed URL, restricted to the components this program reads. -/
structure GoURL where
  host : String
  path : String
deriving DecidableEq, Repr

/-- Model of Go `url.Parse` (see the section comment for restrictions).
`none` is a parse error — at the call site in `getURLDomain` the ignored
error leaves `read` nil and `read.Host` faults. -/
def urlParse (s : String) : Option GoURL :=
  let cs := s.data.takeWhile (fun c => c ≠ '#')
  match getSchemeAux [] cs with
  | none => none
  | some schemeRes =>
    let hasScheme := schemeRes.isSome
    let rest := schemeRes.getD cs
    let rest := rest.takeWhile (fun c => c ≠ '?')
    if strStartsWith ['/', '/'] rest then
      let afterMarker := rest.drop 2
      let authority := afterMarker.takeWhile (fun c => c ≠ '/')
      let tail := afterMarker.dropWhile (fun c => c ≠ '/')
      match parseHost (afterLastAt authority) with
      | none => none
      | some h => some ⟨⟨h⟩, ⟨tail⟩⟩
    else if hasScheme then
      some ⟨"", ⟨rest⟩⟩
    else
      let seg := rest.takeWhile (fun c => c ≠ '/')
      if ':' ∈ seg then none else some ⟨"", ⟨rest⟩⟩

/-! ## `getURLDomain` -/

/-- Embedding of `getURLDomain`.  `regexp ^https?` matches exactly the
strings with prefix `"http"`; `regexp ^www\.` matches exactly prefix
`"www."`, and replacing that anchored pattern drops the four characters.
The result is `none` when the ignored `url.Parse` error leads Go to
dereference a nil pointer (runtime fault); otherwise `some` of the value
returned. -/
def getURLDomain (urlString : String) : Option String :=
  let s := trimSpace urlString
  let afterParse : Option String :=
    if goStartsWith s "http" then (urlParse s).map GoURL.host
    else some s
  afterParse.map fun t =>
    let t' := if goStartsWith t "www." then ⟨t.data.drop 4⟩ else t
    findDomain t'

/-! ## Data model -/

/-- `Article` from `main.go`. -/
structure Article where
  publishAt : GoTime
  title : String
  url : String
  urlDomain : String
deriving DecidableEq, Repr

/-- A normalized feed item as delivered by the `gofeed` collaborator:
title, link, and the parsed publish date (already converted to UTC;
items with a missing publish date are out of modelled scope). -/
structure FeedItem where
  title : String
  link : String
  publishedAt : GoTime
deriving DecidableEq, Repr

/-- The item loop of `fetchArticles`: build an `Article` per feed item.
`none` propagates the nil-dereference fault of `getURLDomain`. -/
def fetchArticles (items : List FeedItem) : Option (List Article) :=
  items.mapM fun it =>
    (getURLDomain it.link).map fun d =>
      { publishAt := it.publishedAt, title := it.title, url := it.link,
        urlDomain := d }

/-- The bucket map `articlesByWeek`: total function with default `[]`,
matching a Go map whose absent keys read as nil slices. -/
def Buckets := String → List Article

/-- The empty bucket map. -/
def emptyBuckets : Buckets := fun _ => []

/-- One iteration of `main`'s grouping loop: append the article to its
week's bucket and record the key in `weeks` on first sight. -/
def addArticle : Buckets × List String → Article → Buckets × List String
  | (abw, weeks), a =>
    let id := weekKeyOf a.publishAt
    (fun k => if k = id then abw k ++ [a] else abw k,
     if id ∈ weeks then weeks else weeks ++ [id])

/-- The aggregation state after adding a sequence of articles to the
initially empty state. -/
def aggregate (l : List Article) : Buckets × List String :=
  l.foldl addArticle (emptyBuckets, [])

/-- One iteration of `main`'s feed loop: a failed fetch is logged and
skipped, a successful fetch adds its articles. -/
def processStep (acc : (Buckets × List String) × List String) :
    Except String (List Article) → (Buckets × List String) × List String
  | .error e => (acc.1, acc.2 ++ [e])
  | .ok arts => (arts.foldl addArticle acc.1, acc.2)

/-- `main`'s feed loop over per-feed fetch results: returns the grouping
state and the log of fetch errors. -/
def processFeeds (rs : List (Except String (List Article))) :
    (Buckets × List String) × List String :=
  rs.foldl processStep ((emptyBuckets, []), [])

/-! ## Sorting collaborators (`sort.Strings`, `slices.SortFunc`)

Both sorts are modelled by insertion sort: for strings (all distinct here)
any correct sort yields the same list, and for the article comparator
`cmp.Compare(a.PublishAt.Unix(), b.PublishAt.Unix())` Go's
`slices.SortFunc` runs literally as an insertion sort on slices shorter
than 12 elements. -/

/-- The renderer's article order: non-decreasing Unix seconds
(`PublishAt.Unix()` — publish time truncated to whole seconds). -/
def articleLe (a b : Article) : Prop :=
  a.publishAt.unix ≤ b.publishAt.unix

instance : DecidableRel articleLe := fun a b => by
  unfold articleLe; infer_instance

instance : IsTotal Article articleLe :=
  ⟨fun a b => Int.le_total a.publishAt.unix b.publishAt.unix⟩

instance : IsTrans Article articleLe :=
  ⟨fun _ _ _ h h' => Int.le_trans h h'⟩

/-- `slices.SortFunc(articles, ...)` of `generateMarkdown`. -/
def sortArticles (l : List Article) : List Article :=
  List.insertionSort articleLe l

/-- `sort.Strings` of `main`. -/
def sortStrings (l : List String) : List String :=
  List.insertionSort goStringLe l

/-- Strict order on publish instants (Go `time.Time.Before`): seconds,
then nanoseconds.  This is the spec-side "publish instant" order; the
program itself compares only whole seconds. -/
def instantLt (s t : GoTime) : Prop :=
  s.unix < t.unix ∨ (s.unix = t.unix ∧ s.nsec < t.nsec)

instance : DecidableRel instantLt := fun s t => by
  unfold instantLt; infer_instance

/-! ## Renderer (`generateMarkdown`) -/

/-- Find the leftmost occurrence of `sep` in `cs`: the part before it and
the part after it. -/
def findSub (sep : List Char) : List Char → Option (List Char × List Char)
  | [] => none
  | c :: cs =>
    if strStartsWith sep (c :: cs) then some ([], (c :: cs).drop sep.length)
    else (findSub sep cs).map fun p => (c :: p.1, p.2)

/-- Go `strings.SplitN` (for positive `n`, nonempty separator): split
around the first `n - 1` non-overlapping occurrences of `sep`. -/
def splitNAux (sep : List Char) : Nat → List Char → List (List Char)
  | 0, _ => []
  | 1, s => [s]
  | n + 2, s =>
    match findSub sep s with
    | none => [s]
    | some (pre, post) => pre :: splitNAux sep (n + 1) post

/-- Go `strings.SplitN s sep n`. -/
def splitN (s sep : String) (n : Nat) : List String :=
  (splitNAux sep.data n s.data).map fun cs => ⟨cs⟩

/-- One rendered article line:
`fmt.Sprintf("- %s @ %s: [%s](%s)\n", date, domain, title, url)` with the
date formatted by the Go layout `2006-01-02`. -/
def articleLine (a : Article) : String :=
  let d := daysToCivil (dayOfUnix a.publishAt.unix)
  "- " ++ ⟨padNat 4 d.year.toNat ++ '-' :: (padNat 2 d.month ++ '-' :: padNat 2 d.day)⟩ ++
  " @ " ++ a.urlDomain ++ ": [" ++ a.title ++ "](" ++ a.url ++ ")\n"

/-- The renderer's week loop.  Returns the rendered body and the final
bucket map: `slices.SortFunc` sorts each visited nonempty bucket in place,
so the caller's map is threaded through and updated. -/
def renderWeeks (abw : Buckets) : List String → String × Buckets
  | [] => ("", abw)
  | w :: ws =>
    let articles := abw w
    if articles.isEmpty then renderWeeks abw ws
    else
      let sorted := sortArticles articles
      let abw' : Buckets := fun k => if k = w then sorted else abw k
      let rec' := renderWeeks abw' ws
      ("## Week: " ++ w ++ "\n\n" ++ String.join (sorted.map articleLine) ++ "\n" ++ rec'.1,
       rec'.2)

/-- Embedding of `generateMarkdown`, with the template file contents
passed in place of the file read.  `none` is the fatal
`log.Fatalf("Invalid template format")` exit taken when the template does
not split into exactly three parts around `---`; on that path the process
dies before `main` can write the output file.  On success the pair holds
the rendered document and the mutated bucket map. -/
def generateMarkdown (templateData : String) (articlesByWeek : Buckets)
    (weeks : List String) : Option (String × Buckets) :=
  match splitN templateData "---" 3 with
  | [h, _, f] =>
    let header := trimSpace h
    let footer := trimSpace f
    let body := renderWeeks articlesByWeek weeks
    some (header ++ "\n\n" ++ body.1 ++ footer ++ "\n", body.2)
  | _ => none

/-! ## The whole pipeline (`main` after configuration loading) -/

/-- `main` from fetch results to the written document: fetch each feed
(skipping failed ones), group by week, sort the keys and reverse, render.
`some out` means `os.WriteFile` is reached with exactly `out`; `none`
means the process faulted or exited fatally first, writing nothing. -/
def mainRun (templateData : String)
    (feeds : List (Except String (List FeedItem))) : Option String :=
  match feeds.mapM (fun r =>
      match r with
      | .error e => some (Except.error e)
      | .ok items => (fetchArticles items).map Except.ok) with
  | none => none
  | some rs =>
    let st := processFeeds rs
    let weeks := (sortStrings st.1.2).reverse
    (generateMarkdown templateData st.1.1 weeks).map Prod.fst

/-! ## Spec-side chronological order on (year, week) pairs (for C9) -/

/-- Chronological strict order on ISO (year, week) pairs. -/
def chronoLt (p q : Nat × Nat) : Prop :=
  p.1 < q.1 ∨ (p.1 = q.1 ∧ p.2 < q.2)

/-- Chronological non-strict order on ISO (year, week) pairs. -/
def chronoLe (p q : Nat × Nat) : Prop := ¬ chronoLt q p

instance : DecidableRel chronoLt := fun p q => by
  unfold chronoLt; infer_instance

instance : DecidableRel chronoLe := fun p q => by
  unfold chronoLe; infer_instance

instance : IsTotal (Nat × Nat) chronoLe :=
  ⟨fun a b => by unfold chronoLe chronoLt; omega⟩

instance : IsTrans (Nat × Nat) chronoLe :=
  ⟨fun a b c h h' => by unfold chronoLe chronoLt at *; omega⟩

/-- The week key string of an ISO (year, week) pair, as `main` formats it
(`%d-%02d`, restricted to nonnegative years). -/
def pairKey (p : Nat × Nat) : String :=
  ⟨natDigits p.1 ++ '-' :: padNat 2 p.2⟩

/-- Chronologically descending sort of (year, week) pairs — the spec-side
reading of "most-recent-week-first order". -/
def sortPairsDesc (ps : List (Nat × Nat)) : List (Nat × Nat) :=
  (List.insertionSort chronoLe ps).reverse

/-! ## Auxiliary notions used by the claim statements -/

/-- Index of the first occurrence of `x` in `ks` (length of `ks` when
absent) — the "first seen" position of a week key in the stream of keys. -/
def firstIdx : List String → String → Nat
  | [], _ => 0
  | k :: ks, x => if k = x then 0 else firstIdx ks x + 1

/-- The articles of the successful fetches, in order — the stream the
aggregation loop consumes across the whole multi-feed sequence. -/
def okArticles (rs : List (Except String (List Article))) : List Article :=
  rs.foldr (fun r acc =>
    (match r with | .ok a => a | .error _ => []) ++ acc) []

/-- The dot-prefixed continuation `.l₁.l₂…` of a label list. -/
def dotsRest : List (List Char) → List Char
  | [] => []
  | l :: ls => '.' :: (l ++ dotsRest ls)

/-- Labels joined by literal dots: the spec's shape of a bare domain. -/
def joinDots : List (List Char) → List Char
  | [] => []
  | l :: ls => l ++ dotsRest ls

/-! ### Concrete fixtures for witnesses -/

/-- A fixture article published 1970-01-02 00:00:00 UTC. -/
def artP : Article := ⟨⟨86400, 0⟩, "P", "", ""⟩

/-- A fixture article published 1970-01-01 00:00:00 UTC. -/
def artQ : Article := ⟨⟨0, 0⟩, "Q", "", ""⟩

/-- A fixture bucket map holding `[artP, artQ]` under key `"w"`. -/
def demoBuckets : Buckets := fun k => if k = "w" then [artP, artQ] else []

/-! ## C2: parse failure inside `getURLDomain` -/

/-- C2 (code divergence): `"http://exa mple.com"` is its own trimmed form
and begins with the scheme marker; `url.Parse` rejects it (space in the
host), and `getURLDomain` faults (`none`: the ignored error leaves `read`
nil and `read.Host` dereferences a nil pointer).  The claimed fallback —
applying the www-strip and the pattern match to the original trimmed
input — is never reached. -/
theorem c2_parse_failure_faults :
    trimSpace "http://exa mple.com" = "http://exa mple.com" ∧
    goStartsWith "http://exa mple.com" "http" = true ∧
    urlParse "http://exa mple.com" = none ∧
    getURLDomain "http://exa mple.com" = none := by decide

/-! ## C1: end-to-end example -/

/-- C1 counterexample: the claim asserts the article with link
`https://Example.com/a` gets the empty `URLDomain`.  In fact the
unanchored pattern finds the lowercase substring `"xample.com"` inside the
host `Example.com`. -/
theorem c1_counterexample :
    getURLDomain "https://Example.com/a" = some "xample.com" ∧
    getURLDomain "https://Example.com/a" ≠ some "" := by decide

/-- C1 as amended: with one feed returning A
(`https://Example.com/a`, 2025-01-02T10:00Z) then B
(`www.example.com/b`, 2025-01-02T09:00Z), the rendered week `2025-01`
section lists B's line before A's (B is earlier), B's domain is
`example.com`, and A's domain is `xample.com` (not the empty string). -/
theorem c1_amended :
    mainRun "HEADER\n---\nignored\n---\nFOOTER\n"
      [Except.ok [(⟨"A", "https://Example.com/a",
                     ⟨civilToDays 2025 1 2 * 86400 + 10 * 3600, 0⟩⟩ : FeedItem),
                  ⟨"B", "www.example.com/b",
                     ⟨civilToDays 2025 1 2 * 86400 + 9 * 3600, 0⟩⟩]] =
    some ("HEADER\n\n## Week: 2025-01\n\n" ++
          "- 2025-01-02 @ example.com: [B](www.example.com/b)\n" ++
          "- 2025-01-02 @ xample.com: [A](https://Example.com/a)\n\n" ++
          "FOOTER\n") := by decide

/-! ## C6: malformed template is fatal -/

/-- When the template does not split into exactly three parts around
`---`, `generateMarkdown` takes the fatal exit (`none`). -/
theorem generateMarkdown_none_of_bad_template (tmpl : String) (abw : Buckets)
    (weeks : List String) (h : (splitN tmpl "---" 3).length ≠ 3) :
    generateMarkdown tmpl abw weeks = none := by
  unfold generateMarkdown
  rcases hs : splitN tmpl "---" 3 with _ | ⟨a, _ | ⟨b, _ | ⟨c, _ | ⟨d, t⟩⟩⟩⟩ <;>
    simp_all

/-- C6: whenever the template does not split into exactly three parts
around `---`, rendering fails fatally (`generateMarkdown` yields `none`
for every bucket map and week order) and the whole run produces nothing:
`mainRun` — whose `some` results are exactly the documents `main` writes
to the output file — is `none` for every feed outcome, so the output file
is never created or overwritten on this path. -/
theorem c6_template (tmpl : String)
    (h : (splitN tmpl "---" 3).length ≠ 3) :
    (∀ (abw : Buckets) (weeks : List String),
      generateMarkdown tmpl abw weeks = none) ∧
    (∀ feeds : List (Except String (List FeedItem)),
      mainRun tmpl feeds = none) := by
  refine ⟨fun abw weeks => generateMarkdown_none_of_bad_template tmpl abw weeks h,
          fun feeds => ?_⟩
  unfold mainRun
  rcases hm : feeds.mapM (fun r =>
      match r with
      | .error e => some (Except.error e)
      | .ok items => (fetchArticles items).map Except.ok) with _ | rs
  · rw [hm]
  · rw [hm]
    simp only [generateMarkdown_none_of_bad_template tmpl _ _ h, Option.map_none']

/-- Witness for C6 at the delimiter-free template `"no delimiters"`. -/
theorem c6_witness :
    (splitN "no delimiters" "---" 3).length ≠ 3 ∧
    generateMarkdown "no delimiters" emptyBuckets [] = none ∧
    mainRun "no delimiters" [] = none :=
  ⟨by decide, (c6_template "no delimiters" (by decide)).1 emptyBuckets [],
   (c6_template "no delimiters" (by decide)).2 []⟩

/-! ## C5: in-section article order -/

/-- C5 counterexample: two articles in the same Unix second, X fetched
first but published 0.9 s after Y.  Y's publish instant is strictly
earlier, yet the rendered section lists X's line first: the comparator
`cmp.Compare(a.PublishAt.Unix(), b.PublishAt.Unix())` sees equal keys, so
the fetch order survives the sort. -/
theorem c5_counterexample :
    mainRun "A---B---C"
      [Except.ok [(⟨"X", "", ⟨100, 900000000⟩⟩ : FeedItem), ⟨"Y", "", ⟨100, 0⟩⟩]] =
      some "A\n\n## Week: 1970-01\n\n- 1970-01-01 @ : [X]()\n- 1970-01-01 @ : [Y]()\n\nC\n" ∧
    instantLt (⟨100, 0⟩ : GoTime) ⟨100, 900000000⟩ := by decide

/-- C5 as amended: within a rendered week section the articles appear in
ascending order of publish time truncated to whole seconds: whenever one
article's Unix second is strictly smaller than another's, its line comes
earlier in the sorted bucket the renderer emits. -/
theorem c5_amended (l : List Article) (i j : Nat) (a b : Article)
    (hi : (sortArticles l)[i]? = some a) (hj : (sortArticles l)[j]? = some b)
    (hab : a.publishAt.unix < b.publishAt.unix) : i < j := by
  have hs : List.Sorted articleLe (sortArticles l) :=
    List.sorted_insertionSort articleLe l
  rw [List.getElem?_eq_some] at hi hj
  obtain ⟨hi', hia⟩ := hi
  obtain ⟨hj', hjb⟩ := hj
  by_contra hij
  rcases Nat.lt_or_ge j i with hlt | hge
  · have hba : articleLe b a := by
      have := hs.rel_get_of_lt (a := ⟨j, hj'⟩) (b := ⟨i, hi'⟩) hlt
      simpa [List.get_eq_getElem, hia, hjb] using this
    unfold articleLe at hba
    omega
  · have : i = j := by omega
    subst this
    rw [hia] at hjb
    subst hjb
    exact absurd hab (lt_irrefl _)

/-- Witness for C5 (amended) on a two-article bucket with distinct
seconds. -/
theorem c5_witness :
    ((sortArticles [artP, artQ])[0]? = some artQ ∧
     (sortArticles [artP, artQ])[1]? = some artP ∧
     artQ.publishAt.unix < artP.publishAt.unix) ∧ (0 : Nat) < 1 :=
  ⟨⟨by decide, by decide, by decide⟩,
   c5_amended [artP, artQ] 0 1 artQ artP (by decide) (by decide) (by decide)⟩

/-! ## C10: the renderer's effect on its bucket argument -/

/-- A week key absent from the rendered order keeps its bucket. -/
theorem renderWeeks_snd_of_notMem (ws : List String) (abw : Buckets)
    (k : String) (h : k ∉ ws) : (renderWeeks abw ws).2 k = abw k := by
  induction ws generalizing abw with
  | nil => rfl
  | cons w ws ih =>
    have hkw : k ≠ w := fun he => h (he ▸ List.mem_cons_self w ws)
    have h' : k ∉ ws := fun hm => h (List.mem_cons_of_mem w hm)
    unfold renderWeeks
    by_cases he : (abw w).isEmpty = true
    · rw [if_pos he]
      exact ih abw h'
    · rw [if_neg he]
      dsimp only
      rw [ih _ h']
      simp [hkw]

/-- Every bucket of the final map is a permutation of the one passed in. -/
theorem renderWeeks_snd_perm (ws : List String) (abw : Buckets)
    (k : String) : ((renderWeeks abw ws).2 k).Perm (abw k) := by
  induction ws generalizing abw with
  | nil => exact List.Perm.refl _
  | cons w ws ih =>
    unfold renderWeeks
    by_cases he : (abw w).isEmpty = true
    · rw [if_pos he]
      exact ih abw
    · rw [if_neg he]
      dsimp only
      refine (ih _).trans ?_
      by_cases hkw : k = w
      · subst hkw
        simp only [if_pos rfl]
        exact List.perm_insertionSort articleLe (abw k)
      · simp [hkw]

/-- Sorting a bucket is preserved by rendering the remaining weeks. -/
theorem renderWeeks_snd_sorted_pres (ws : List String) (abw : Buckets)
    (k : String) (h : List.Sorted articleLe (abw k)) :
    List.Sorted articleLe ((renderWeeks abw ws).2 k) := by
  induction ws generalizing abw with
  | nil => exact h
  | cons w ws ih =>
    unfold renderWeeks
    by_cases he : (abw w).isEmpty = true
    · rw [if_pos he]
      exact ih abw h
    · rw [if_neg he]
      dsimp only
      apply ih
      by_cases hkw : k = w
      · subst hkw
        simp only [if_pos rfl]
        exact List.sorted_insertionSort articleLe (abw k)
      · simpa [hkw] using h

/-- A nonempty bucket whose key is rendered ends up sorted. -/
theorem renderWeeks_snd_sorted_mem (ws : List String) (abw : Buckets)
    (k : String) (hk : k ∈ ws) (hne : abw k ≠ []) :
    List.Sorted articleLe ((renderWeeks abw ws).2 k) := by
  induction ws generalizing abw with
  | nil => cases hk
  | cons w ws ih =>
    unfold renderWeeks
    by_cases hkw : k = w
    · subst hkw
      have he : ¬ (abw k).isEmpty = true := by
        cases hab : abw k
        · exact absurd hab hne
        · simp [hab]
      rw [if_neg he]
      dsimp only
      apply renderWeeks_snd_sorted_pres
      simp only [if_pos rfl]
      exact List.sorted_insertionSort articleLe (abw k)
    · have hk' : k ∈ ws := by
        rcases List.mem_cons.mp hk with h | h
        · exact absurd h hkw
        · exact h
      by_cases he : (abw w).isEmpty = true
      · rw [if_pos he]
        exact ih abw hk' hne
      · rw [if_neg he]
        dsimp only
        apply ih _ hk'
        simpa [hkw] using hne

/-- On success, `generateMarkdown` returns exactly the renderer's final
bucket map. -/
theorem generateMarkdown_some_snd (tmpl : String) (abw : Buckets)
    (weeks : List String) (out : String) (abw' : Buckets)
    (h : generateMarkdown tmpl abw weeks = some (out, abw')) :
    abw' = (renderWeeks abw weeks).2 := by
  unfold generateMarkdown at h
  rcases hs : splitN tmpl "---" 3 with _ | ⟨a, _ | ⟨b, _ | ⟨c, _ | ⟨d, t⟩⟩⟩⟩ <;>
    rw [hs] at h <;> simp_all

/-- C10: `generateMarkdown` mutates its bucket argument; every nonempty
bucket of a rendered key is permuted in place into ascending order of
publish time truncated to whole seconds (same multiset, sorted by Unix
seconds), and buckets of keys outside the supplied order are untouched. -/
theorem c10_frame (tmpl : String) (abw : Buckets) (weeks : List String)
    (out : String) (abw' : Buckets) (k : String)
    (h : generateMarkdown tmpl abw weeks = some (out, abw')) :
    (k ∈ weeks → abw k ≠ [] →
      ((abw' k).Perm (abw k) ∧ List.Sorted articleLe (abw' k))) ∧
    (k ∉ weeks → abw' k = abw k) := by
  have hf := generateMarkdown_some_snd tmpl abw weeks out abw' h
  subst hf
  exact ⟨fun hk hne => ⟨renderWeeks_snd_perm weeks abw k,
          renderWeeks_snd_sorted_mem weeks abw k hk hne⟩,
         fun hk => renderWeeks_snd_of_notMem weeks abw k hk⟩

/-- Witness for C10 on a concrete two-article bucket. -/
theorem c10_witness :
    (("w" ∈ ["w"]) ∧ demoBuckets "w" ≠ []) ∧
    (((renderWeeks demoBuckets ["w"]).2 "w").Perm (demoBuckets "w") ∧
      List.Sorted articleLe ((renderWeeks demoBuckets ["w"]).2 "w")) :=
  ⟨⟨by decide, by decide⟩,
   (c10_frame "x---y---z" demoBuckets ["w"]
      ("x" ++ "\n\n" ++ (renderWeeks demoBuckets ["w"]).1 ++ "z" ++ "\n")
      (renderWeeks demoBuckets ["w"]).2 "w" rfl).1 (by decide) (by decide)⟩

/-! ## C7: per-feed failure tolerance -/

/-- The grouping component of the loop state never depends on the log
component. -/
theorem processStep_fst_congr (rs : List (Except String (List Article)))
    (st st' : (Buckets × List String) × List String) (h : st.1 = st'.1) :
    (rs.foldl processStep st).1 = (rs.foldl processStep st').1 := by
  induction rs generalizing st st' with
  | nil => exact h
  | cons r rs ih =>
    simp only [List.foldl_cons]
    apply ih
    cases r <;> simp [processStep, h]

/-- The log only grows along the feed loop. -/
theorem processStep_logs_mono (rs : List (Except String (List Article)))
    (st : (Buckets × List String) × List String) :
    ∃ t, (rs.foldl processStep st).2 = st.2 ++ t := by
  induction rs generalizing st with
  | nil => exact ⟨[], (List.append_nil _).symm⟩
  | cons r rs ih =>
    simp only [List.foldl_cons]
    obtain ⟨t, ht⟩ := ih (processStep st r)
    cases r with
    | error e =>
      refine ⟨[e] ++ t, ?_⟩
      simp only [processStep] at ht
      simpa using ht
    | ok arts => exact ⟨t, by simpa [processStep] using ht⟩

/-- C7 generalized over the loop state. -/
theorem c7_aux (rs : List (Except String (List Article))) (i : Nat) (e : String)
    (st : (Buckets × List String) × List String)
    (h : rs[i]? = some (Except.error e)) :
    (rs.foldl processStep st).1 = ((rs.set i (Except.ok [])).foldl processStep st).1 ∧
    e ∈ (rs.foldl processStep st).2 := by
  induction rs generalizing i st with
  | nil => simp at h
  | cons r rs ih =>
    cases i with
    | zero =>
      simp only [List.getElem?_cons_zero, Option.some_inj] at h
      subst h
      simp only [List.set_cons_zero, List.foldl_cons]
      constructor
      · exact processStep_fst_congr rs _ _ (by simp [processStep])
      · obtain ⟨t, ht⟩ := processStep_logs_mono rs (processStep st (.error e))
        rw [ht]
        simp [processStep]
    | succ i =>
      simp only [List.getElem?_cons_succ] at h
      simp only [List.set_cons_succ, List.foldl_cons]
      exact ih i (processStep st r) h

/-- C7: a fetch failure of one source never aborts the run: the grouping
state over all sources equals the one obtained had the failing source
returned zero items, and the error is logged. -/
theorem c7_fetch_failure (rs : List (Except String (List Article)))
    (i : Nat) (e : String) (h : rs[i]? = some (Except.error e)) :
    (processFeeds rs).1 = (processFeeds (rs.set i (Except.ok []))).1 ∧
    e ∈ (processFeeds rs).2 :=
  c7_aux rs i e _ h

/-- Witness for C7 at a single failing feed. -/
theorem c7_witness :
    ([Except.error "boom"] : List (Except String (List Article)))[0]? =
        some (Except.error "boom") ∧
    ((processFeeds [Except.error "boom"]).1 =
        (processFeeds (([Except.error "boom"] :
          List (Except String (List Article))).set 0 (Except.ok []))).1 ∧
      "boom" ∈ (processFeeds [Except.error "boom"]).2) :=
  ⟨rfl, c7_fetch_failure [Except.error "boom"] 0 "boom" rfl⟩

/-! ## C8: the aggregation invariant -/

/-- `firstIdx` ignores a right extension when the key occurs. -/
theorem firstIdx_append_left (ks t : List String) (x : String) (h : x ∈ ks) :
    firstIdx (ks ++ t) x = firstIdx ks x := by
  induction ks with
  | nil => cases h
  | cons k ks ih =>
    by_cases hkx : k = x
    · simp [firstIdx, hkx]
    · have h' : x ∈ ks := by
        rcases List.mem_cons.mp h with h | h
        · exact absurd h.symm hkx
        · exact h
      simp [firstIdx, hkx, ih h']

/-- `firstIdx` of an absent key skips the whole first part. -/
theorem firstIdx_append_right (ks t : List String) (x : String) (h : x ∉ ks) :
    firstIdx (ks ++ t) x = ks.length + firstIdx t x := by
  induction ks with
  | nil => simp [firstIdx]
  | cons k ks ih =>
    have hkx : k ≠ x := fun he => h (he ▸ List.mem_cons_self k ks)
    have h' : x ∉ ks := fun hm => h (List.mem_cons_of_mem k hm)
    show (if k = x then 0 else firstIdx (ks ++ t) x + 1) =
      (k :: ks).length + firstIdx t x
    rw [if_neg hkx, ih h']
    simp only [List.length_cons]
    omega

/-- A present key's first index is inside the list. -/
theorem firstIdx_lt_length (ks : List String) (x : String) (h : x ∈ ks) :
    firstIdx ks x < ks.length := by
  induction ks with
  | nil => cases h
  | cons k ks ih =>
    by_cases hkx : k = x
    · simp [firstIdx, hkx]
    · have h' : x ∈ ks := by
        rcases List.mem_cons.mp h with h | h
        · exact absurd h.symm hkx
        · exact h
      simp only [firstIdx, if_neg hkx, List.length_cons]
      exact Nat.succ_lt_succ (ih h')

/-- Folding one more article. -/
theorem aggregate_append (l : List Article) (a : Article) :
    aggregate (l ++ [a]) = addArticle (aggregate l) a := by
  simp [aggregate, List.foldl_append]

/-- C8 strengthened invariant: after any sequence of articles is added,
`weeks` is duplicate-free, ordered by first occurrence in the key stream,
and lists exactly the keys with nonempty buckets, which are exactly the
keys occurring in the stream. -/
theorem aggregate_inv (l : List Article) :
    (aggregate l).2.Nodup ∧
    (aggregate l).2.Pairwise (fun a b =>
      firstIdx (l.map fun a => weekKeyOf a.publishAt) a <
      firstIdx (l.map fun a => weekKeyOf a.publishAt) b) ∧
    (∀ id, id ∈ (aggregate l).2 ↔ (aggregate l).1 id ≠ []) ∧
    (∀ id, id ∈ (aggregate l).2 ↔
      id ∈ (l.map fun a => weekKeyOf a.publishAt)) := by
  induction l using List.reverseRecOn with
  | nil =>
    refine ⟨List.nodup_nil, List.Pairwise.nil, ?_, ?_⟩ <;>
      simp [aggregate, emptyBuckets]
  | append_singleton l a ih =>
    rcases hst : aggregate l with ⟨abw, weeks⟩
    rw [hst] at ih
    obtain ⟨hnd, hpw, hbk, hks⟩ := ih
    rw [aggregate_append, hst]
    simp only [addArticle]
    set id := weekKeyOf a.publishAt with hid
    set ks := l.map fun a => weekKeyOf a.publishAt with hks'
    have hmap : (l ++ [a]).map (fun a => weekKeyOf a.publishAt) = ks ++ [id] := by
      simp [hks', hid]
    rw [hmap]
    by_cases hidw : id ∈ weeks
    · rw [if_pos hidw]
      refine ⟨hnd, ?_, ?_, ?_⟩
      · refine hpw.imp_of_mem ?_
        intro x y hx hy hxy
        rw [firstIdx_append_left ks [id] x ((hks x).mp hx),
            firstIdx_append_left ks [id] y ((hks y).mp hy)]
        exact hxy
      · intro j
        by_cases hj : j = id
        · subst hj
          simp only [if_pos rfl]
          constructor
          · intro _ he
            exact absurd he (by simp)
          · intro _
            exact hidw
        · simp only [if_neg hj]
          exact hbk j
      · intro j
        rw [List.mem_append]
        constructor
        · intro hj
          exact Or.inl ((hks j).mp hj)
        · rintro (hj | hj)
          · exact (hks j).mpr hj
          · rw [List.mem_singleton.mp hj]
            exact hidw
    · rw [if_neg hidw]
      have hidks : id ∉ ks := fun hm => hidw ((hks id).mpr hm)
      refine ⟨?_, ?_, ?_, ?_⟩
      · rw [List.nodup_append]
        exact ⟨hnd, List.nodup_singleton id,
          fun x hx hx' => hidw ((List.mem_singleton.mp hx') ▸ hx)⟩
      · rw [List.pairwise_append]
        refine ⟨?_, List.pairwise_singleton _ _, ?_⟩
        · refine hpw.imp_of_mem ?_
          intro x y hx hy hxy
          rw [firstIdx_append_left ks [id] x ((hks x).mp hx),
              firstIdx_append_left ks [id] y ((hks y).mp hy)]
          exact hxy
        · intro x hx y hy
          rw [List.mem_singleton.mp hy]
          rw [firstIdx_append_left ks [id] x ((hks x).mp hx),
              firstIdx_append_right ks [id] id hidks]
          have := firstIdx_lt_length ks x ((hks x).mp hx)
          simp only [firstIdx, if_pos rfl]
          omega
      · intro j
        rw [List.mem_append]
        by_cases hj : j = id
        · subst hj
          simp only [if_pos rfl]
          constructor
          · intro _ he
            exact absurd he (by simp)
          · intro _
            exact Or.inr (List.mem_singleton_self _)
        · simp only [if_neg hj]
          constructor
          · intro hjw
            rcases hjw with hjw | hjw
            · exact (hbk j).mp hjw
            · exact absurd (List.mem_singleton.mp hjw) hj
          · intro hne
            exact Or.inl ((hbk j).mpr hne)
      · intro j
        rw [List.mem_append, List.mem_append]
        by_cases hj : j = id
        · subst hj
          simp
        · constructor
          · rintro (hjw | hjw)
            · exact Or.inl ((hks j).mp hjw)
            · exact absurd (List.mem_singleton.mp hjw) hj
          · rintro (hjk | hjk)
            · exact Or.inl ((hks j).mpr hjk)
            · exact absurd (List.mem_singleton.mp hjk) hj

/-- The multi-feed loop's grouping state is the aggregation of the
concatenated article stream of the successful fetches. -/
theorem processFeeds_fst_aux (rs : List (Except String (List Article)))
    (st : Buckets × List String) (logs : List String) :
    (rs.foldl processStep (st, logs)).1 = (okArticles rs).foldl addArticle st := by
  induction rs generalizing st logs with
  | nil => rfl
  | cons r rs ih =>
    cases r with
    | error e =>
      simp only [List.foldl_cons, processStep, okArticles, List.foldr_cons,
        List.nil_append]
      exact ih st (logs ++ [e])
    | ok arts =>
      simp only [List.foldl_cons, processStep, okArticles, List.foldr_cons,
        List.foldl_append]
      exact ih _ logs

/-- C8: after every article is added by the aggregation loop — at any
point of the multi-feed sequence — the week index has no duplicates, its
keys are in first-seen order over the key stream, and a key is in the
index iff its bucket is nonempty (iff the key occurs in the stream); the
loop state over feed results is exactly this aggregation of the
concatenated successful articles. -/
theorem c8_invariant :
    (∀ l : List Article,
      (aggregate l).2.Nodup ∧
      (aggregate l).2.Pairwise (fun a b =>
        firstIdx (l.map fun a => weekKeyOf a.publishAt) a <
        firstIdx (l.map fun a => weekKeyOf a.publishAt) b) ∧
      (∀ id, id ∈ (aggregate l).2 ↔ (aggregate l).1 id ≠ []) ∧
      (∀ id, id ∈ (aggregate l).2 ↔
        id ∈ (l.map fun a => weekKeyOf a.publishAt))) ∧
    (∀ rs, (processFeeds rs).1 = aggregate (okArticles rs)) :=
  ⟨aggregate_inv, fun rs => processFeeds_fst_aux rs (emptyBuckets, []) []⟩

/-! ## C3: bare domains pass through -/

/-- Label characters are not whitespace. -/
theorem label_not_space (c : Char) (h : isLabelChar c = true) :
    isGoSpace c = false := by
  by_contra hs
  rw [Bool.not_eq_false] at hs
  simp only [isGoSpace, Bool.or_eq_true, decide_eq_true_eq] at hs
  rcases hs with ((((((h1 | h1) | h1) | h1) | h1) | h1) | h1) | h1 <;>
    subst h1 <;> exact absurd h (by decide)

/-- `dropWhile` is the identity when no element satisfies the predicate. -/
theorem dropWhile_eq_self_of_none (p : Char → Bool) (cs : List Char)
    (h : ∀ c ∈ cs, p c = false) : cs.dropWhile p = cs := by
  cases cs with
  | nil => rfl
  | cons c cs =>
    rw [List.dropWhile_cons, h c (List.mem_cons_self c cs)]
    simp

/-- Trimming a string without whitespace is the identity. -/
theorem trimChars_eq_self (cs : List Char)
    (h : ∀ c ∈ cs, isGoSpace c = false) : trimChars cs = cs := by
  unfold trimChars
  rw [dropWhile_eq_self_of_none _ cs h,
      dropWhile_eq_self_of_none _ cs.reverse
        (fun c hc => h c (List.mem_reverse.mp hc)),
      List.reverse_reverse]

/-- Characters of `dotsRest` are dots or label characters of its labels. -/
theorem dotsRest_mem (ls : List (List Char)) (c : Char)
    (h : c ∈ dotsRest ls) : c = '.' ∨ ∃ l ∈ ls, c ∈ l := by
  induction ls with
  | nil => cases h
  | cons l ls ih =>
    rcases List.mem_cons.mp h with h | h
    · exact Or.inl h
    · rcases List.mem_append.mp h with h | h
      · exact Or.inr ⟨l, List.mem_cons_self l ls, h⟩
      · rcases ih h with h | ⟨l', hl', hc⟩
        · exact Or.inl h
        · exact Or.inr ⟨l', List.mem_cons_of_mem l hl', hc⟩

/-- Characters of `joinDots` are dots or label characters of its labels. -/
theorem joinDots_mem (ls : List (List Char)) (c : Char)
    (h : c ∈ joinDots ls) : c = '.' ∨ ∃ l ∈ ls, c ∈ l := by
  cases ls with
  | nil => cases h
  | cons l ls =>
    rcases List.mem_append.mp h with h | h
    · exact Or.inr ⟨l, List.mem_cons_self l ls, h⟩
    · rcases dotsRest_mem ls c h with h | ⟨l', hl', hc⟩
      · exact Or.inl h
      · exact Or.inr ⟨l', List.mem_cons_of_mem l hl', hc⟩

/-- Splitting an all-label block followed by a non-label (or empty)
remainder. -/
theorem takeWhile_label_append (l rest : List Char)
    (hl : ∀ c ∈ l, isLabelChar c = true)
    (hr : ∀ c ∈ rest.head?, isLabelChar c = false) :
    (l ++ rest).takeWhile isLabelChar = l ∧
    (l ++ rest).dropWhile isLabelChar = rest := by
  induction l with
  | nil =>
    simp only [List.nil_append]
    cases rest with
    | nil => exact ⟨rfl, rfl⟩
    | cons c cs =>
      have hc := hr c rfl
      rw [List.takeWhile_cons, List.dropWhile_cons, hc]
      simp
  | cons a l ih =>
    have ha := hl a (List.mem_cons_self a l)
    rw [List.cons_append, List.takeWhile_cons, List.dropWhile_cons, ha]
    obtain ⟨h1, h2⟩ := ih fun c hc => hl c (List.mem_cons_of_mem a hc)
    simp [h1, h2]

/-- The head of a `dotsRest` is never a label character. -/
theorem dotsRest_head (ls : List (List Char)) :
    ∀ c ∈ (dotsRest ls).head?, isLabelChar c = false := by
  cases ls with
  | nil => intro c hc; cases hc
  | cons l ls =>
    intro c hc
    have : c = '.' := by
      have : (dotsRest (l :: ls)).head? = some '.' := rfl
      rw [this] at hc
      exact (Option.mem_some_iff.mp hc).symm
    subst this
    decide

/-- `chainExt` on the empty list. -/
theorem chainExt_nil (f : Nat) : chainExt f [] = [] := by
  cases f <;> rfl

/-- Unfolding `chainExt` at a dot. -/
theorem chainExt_cons_dot (f : Nat) (r : List Char) :
    chainExt (f + 1) ('.' :: r) =
      (if (r.takeWhile isLabelChar).isEmpty then []
       else ('.' :: r.takeWhile isLabelChar) ++
         chainExt f (r.dropWhile isLabelChar)) := rfl

/-- `chainExt` consumes a whole well-formed dotted label sequence. -/
theorem chainExt_dotsRest (ls : List (List Char)) (fuel : Nat)
    (hfuel : ls.length ≤ fuel)
    (h : ∀ l ∈ ls, l ≠ [] ∧ ∀ c ∈ l, isLabelChar c = true) :
    chainExt fuel (dotsRest ls) = dotsRest ls := by
  induction ls generalizing fuel with
  | nil => exact chainExt_nil fuel
  | cons l ls ih =>
    cases fuel with
    | zero => simp at hfuel
    | succ f =>
      obtain ⟨hne, hlab⟩ := h l (List.mem_cons_self l ls)
      obtain ⟨ht, hd⟩ :=
        takeWhile_label_append l (dotsRest ls) hlab (dotsRest_head ls)
      have hstep : dotsRest (l :: ls) = '.' :: (l ++ dotsRest ls) := rfl
      rw [hstep, chainExt_cons_dot, ht, hd]
      have hemp : l.isEmpty = false := by
        cases l
        · exact absurd rfl hne
        · rfl
      rw [hemp]
      simp only [Bool.false_eq_true, if_false]
      rw [ih f (by simp only [List.length_cons] at hfuel; omega)
          (fun l' hl' => h l' (List.mem_cons_of_mem l hl'))]
      simp

/-- `dotsRest` has at least one character per label. -/
theorem dotsRest_length (ls : List (List Char)) :
    ls.length ≤ (dotsRest ls).length := by
  induction ls with
  | nil => simp [dotsRest]
  | cons l ls ih =>
    simp only [dotsRest, List.length_cons, List.length_append]
    omega

/-- The domain pattern matches a whole bare domain of two or more labels
at position zero. -/
theorem matchAt_joinDots (l0 : List Char) (ls : List (List Char))
    (hne0 : l0 ≠ []) (hlab0 : ∀ c ∈ l0, isLabelChar c = true)
    (hls : ls ≠ [])
    (h : ∀ l ∈ ls, l ≠ [] ∧ ∀ c ∈ l, isLabelChar c = true) :
    matchAt (joinDots (l0 :: ls)) = some (joinDots (l0 :: ls)) := by
  obtain ⟨ht, hd⟩ :=
    takeWhile_label_append l0 (dotsRest ls) hlab0 (dotsRest_head ls)
  have hj : joinDots (l0 :: ls) = l0 ++ dotsRest ls := rfl
  have hfuel : ls.length ≤ (l0 ++ dotsRest ls).length := by
    have := dotsRest_length ls
    simp only [List.length_append]
    omega
  have hext := chainExt_dotsRest ls (l0 ++ dotsRest ls).length hfuel h
  simp only [matchAt, hj, ht, hd, hext]
  have hemp0 : l0.isEmpty = false := by
    cases l0
    · exact absurd rfl hne0
    · rfl
  have hempd : (dotsRest ls).isEmpty = false := by
    cases ls
    · exact absurd rfl hls
    · rfl
  rw [hemp0, hempd]
  simp

/-- `findAux` finds the whole bare domain at the leftmost position. -/
theorem findAux_joinDots (l0 : List Char) (ls : List (List Char))
    (hne0 : l0 ≠ []) (hlab0 : ∀ c ∈ l0, isLabelChar c = true)
    (hls : ls ≠ [])
    (h : ∀ l ∈ ls, l ≠ [] ∧ ∀ c ∈ l, isLabelChar c = true) :
    findAux (joinDots (l0 :: ls)) = some (joinDots (l0 :: ls)) := by
  have hm := matchAt_joinDots l0 ls hne0 hlab0 hls h
  cases hl0 : l0 with
  | nil => exact absurd hl0 hne0
  | cons c l0' =>
    subst hl0
    have hj : joinDots ((c :: l0') :: ls) = c :: (l0' ++ dotsRest ls) := by
      show (c :: l0') ++ dotsRest ls = _
      simp
    rw [hj] at hm ⊢
    unfold findAux
    rw [hm]

/-- C3 as amended: every bare domain of **two or more** labels of
lowercase letters/digits/hyphens joined by literal dots is returned
unchanged by `getURLDomain`, provided it does not begin with `"http"`
(which would be mistaken for a scheme marker) nor with `"www."` (which
would be stripped). -/
theorem c3_amended (ls : List (List Char)) (h2 : 2 ≤ ls.length)
    (h : ∀ l ∈ ls, l ≠ [] ∧ ∀ c ∈ l, isLabelChar c = true)
    (hhttp : goStartsWith ⟨joinDots ls⟩ "http" = false)
    (hwww : goStartsWith ⟨joinDots ls⟩ "www." = false) :
    getURLDomain ⟨joinDots ls⟩ = some ⟨joinDots ls⟩ := by
  obtain ⟨l0, ls', rfl⟩ : ∃ l0 ls', ls = l0 :: ls' := by
    cases ls with
    | nil => simp at h2
    | cons l0 ls' => exact ⟨l0, ls', rfl⟩
  have hls' : ls' ≠ [] := by
    intro he
    subst he
    simp at h2
  have htrim : trimSpace ⟨joinDots (l0 :: ls')⟩ = ⟨joinDots (l0 :: ls')⟩ := by
    unfold trimSpace
    congr 1
    apply trimChars_eq_self
    intro c hc
    have hc2 : c ∈ joinDots (l0 :: ls') := hc
    rcases joinDots_mem _ c hc2 with hc3 | ⟨l, hl, hcl⟩
    · subst hc3
      decide
    · exact label_not_space c ((h l hl).2 c hcl)
  obtain ⟨hne0, hlab0⟩ := h l0 (List.mem_cons_self l0 ls')
  have hfind := findAux_joinDots l0 ls' hne0 hlab0 hls'
    (fun l' hl' => h l' (List.mem_cons_of_mem l0 hl'))
  simp only [getURLDomain]
  rw [htrim, hhttp]
  simp only [Bool.false_eq_true, if_false, Option.map_some']
  rw [hwww]
  simp only [Bool.false_eq_true, if_false, findDomain]
  rw [hfind]

/-- C3 counterexample: three bare domains (per the claim's "one or more
labels" shape) that `getURLDomain` does not return unchanged: a `www.`
prefix is stripped, a single label never matches the two-label pattern,
and a bare domain starting with `http` is fed to the URL parser, which
leaves an empty host. -/
theorem c3_counterexample :
    (getURLDomain "www.example.com" ≠ some "www.example.com" ∧
      getURLDomain "www.example.com" = some "example.com") ∧
    (getURLDomain "ab" ≠ some "ab" ∧ getURLDomain "ab" = some "") ∧
    (getURLDomain "http.org" ≠ some "http.org" ∧
      getURLDomain "http.org" = some "") := by decide

/-- Witness for C3 (amended) at `example.com`. -/
theorem c3_witness :
    (2 ≤ ([['e','x','a','m','p','l','e'], ['c','o','m']] :
        List (List Char)).length ∧
     (∀ l ∈ ([['e','x','a','m','p','l','e'], ['c','o','m']] :
        List (List Char)), l ≠ [] ∧ ∀ c ∈ l, isLabelChar c = true) ∧
     goStartsWith ⟨joinDots [['e','x','a','m','p','l','e'], ['c','o','m']]⟩
       "http" = false ∧
     goStartsWith ⟨joinDots [['e','x','a','m','p','l','e'], ['c','o','m']]⟩
       "www." = false) ∧
    getURLDomain ⟨joinDots [['e','x','a','m','p','l','e'], ['c','o','m']]⟩ =
      some ⟨joinDots [['e','x','a','m','p','l','e'], ['c','o','m']]⟩ :=
  ⟨⟨by decide, by decide, by decide, by decide⟩,
   c3_amended _ (by decide) (by decide) (by decide) (by decide)⟩

/-! ## C4: week keys are the ISO year and week

The only nontrivial step is relating the calendar conversions: the year
computed by `daysToCivil` starts on or before the day itself
(`jan1_le`).  The era-based year formula needs one genuinely
combinatorial bound (`hinnant_b1`), proved by monotonicity of the
correction term together with a 400-entry decidable table. -/

/-- The year-correction term `n - n/1460 + n/36524 - n/146096` grows by at
most its argument (single step). -/
theorem hinnantF_step (m : Nat) (hm : m ≤ 146100) :
    m - m / 1460 + m / 36524 - m / 146096 ≤
      (m + 1) - (m + 1) / 1460 + (m + 1) / 36524 - (m + 1) / 146096 := by
  omega

/-- The year-correction term is monotone on the era range. -/
theorem hinnantF_mono {n m : Nat} (h : n ≤ m) (hm : m ≤ 146101) :
    n - n / 1460 + n / 36524 - n / 146096 ≤
      m - m / 1460 + m / 36524 - m / 146096 := by
  induction m, h using Nat.le_induction with
  | base => exact Nat.le_refl _
  | succ m hm' ih =>
    exact Nat.le_trans (ih (by omega)) (hinnantF_step m (by omega))

set_option maxRecDepth 4000 in
set_option maxHeartbeats 1000000 in
/-- On the eve of each year-of-era start the correction term still reads
the previous year: checked for all 400 years of an era. -/
theorem hinnant_table : ∀ v < 400, 1 ≤ v →
    (365 * v + v / 4 - v / 100 - 1) -
        (365 * v + v / 4 - v / 100 - 1) / 1460 +
        (365 * v + v / 4 - v / 100 - 1) / 36524 -
        (365 * v + v / 4 - v / 100 - 1) / 146096 ≤ 365 * v - 1 := by decide

set_option maxHeartbeats 1000000 in
/-- The start of the computed year-of-era is on or before the day. -/
theorem hinnant_b1 (n : Nat) (h : n ≤ 146096) :
    365 * ((n - n / 1460 + n / 36524 - n / 146096) / 365) +
      ((n - n / 1460 + n / 36524 - n / 146096) / 365) / 4 -
      ((n - n / 1460 + n / 36524 - n / 146096) / 365) / 100 ≤ n := by
  by_cases hv0 : (n - n / 1460 + n / 36524 - n / 146096) / 365 = 0
  · rw [hv0]
    omega
  · by_contra hlt
    have h146 := hinnantF_mono h (by omega)
    have h146v : (146096 : Nat) - 146096 / 1460 + 146096 / 36524 -
        146096 / 146096 = 145999 := by decide
    rw [h146v] at h146
    have hv399 : (n - n / 1460 + n / 36524 - n / 146096) / 365 ≤ 399 := by omega
    have htab := hinnant_table ((n - n / 1460 + n / 36524 - n / 146096) / 365)
      (by omega) (by omega)
    have hmono := hinnantF_mono
      (show n ≤ 365 * ((n - n / 1460 + n / 36524 - n / 146096) / 365) +
          ((n - n / 1460 + n / 36524 - n / 146096) / 365) / 4 -
          ((n - n / 1460 + n / 36524 - n / 146096) / 365) / 100 - 1 from by omega)
      (by omega)
    omega

/-- The computed year-of-era stays below 400. -/
theorem hinnant_yoe_le (n : Nat) (h : n ≤ 146096) :
    (n - n / 1460 + n / 36524 - n / 146096) / 365 ≤ 399 := by
  have h146 := hinnantF_mono h (by omega)
  have h146v : (146096 : Nat) - 146096 / 1460 + 146096 / 36524 -
      146096 / 146096 = 145999 := by decide
  omega

/-- Closed form of the day number of January 1. -/
theorem civilToDays_jan1 (y : Int) :
    civilToDays y 1 1 =
      (y - 1) / 400 * 146097 +
        (((y - 1 - (y - 1) / 400 * 400).toNat * 365 +
          (y - 1 - (y - 1) / 400 * 400).toNat / 4 -
          (y - 1 - (y - 1) / 400 * 400).toNat / 100 + 306 : Nat) : Int) - 719468 := by
  simp only [civilToDays]
  norm_num

set_option maxHeartbeats 1600000 in
/-- January 1 of a day's computed year is on or before the day. -/
theorem jan1_le (z : Int) : civilToDays (daysToCivil z).year 1 1 ≤ z := by
  simp only [daysToCivil, apply_ite CivilDate.year]
  rw [apply_ite (fun y => civilToDays y 1 1), civilToDays_jan1, civilToDays_jan1]
  set n := (z + 719468 - (z + 719468) / 146097 * 146097).toNat with hn
  set era := (z + 719468) / 146097 with hera
  set yoe := (n - n / 1460 + n / 36524 - n / 146096) / 365 with hyoe
  set doy := n - (365 * yoe + yoe / 4 - yoe / 100) with hdoy
  set mp := (5 * doy + 2) / 153 with hmp
  have hn146 : n ≤ 146096 := by omega
  have hb1 : 365 * yoe + yoe / 4 - yoe / 100 ≤ n := hinnant_b1 n hn146
  have hyoe399 : yoe ≤ 399 := hinnant_yoe_le n hn146
  have hnz : (n : Int) = z + 719468 - era * 146097 := by omega
  split_ifs with hlt hle hle
  · omega
  · rcases Nat.eq_zero_or_pos yoe with h0 | h0
    · rw [h0]
      have e1 : ((0 : Nat) + era * 400 - 1) / 400 = era - 1 := by omega
      rw [e1]
      have e2 : ((0 : Nat) + era * 400 - 1 - (era - 1) * 400).toNat = 399 := by omega
      rw [e2]
      omega
    · have e1 : ((yoe : Int) + era * 400 - 1) / 400 = era := by omega
      rw [e1]
      have e2 : ((yoe : Int) + era * 400 - 1 - era * 400).toNat = yoe - 1 := by omega
      rw [e2]
      omega
  · have e1 : ((yoe : Int) + era * 400 + 1 - 1) / 400 = era := by omega
    rw [e1]
    have e2 : ((yoe : Int) + era * 400 + 1 - 1 - era * 400).toNat = yoe := by omega
    rw [e2]
    omega
  · rcases Nat.eq_zero_or_pos yoe with h0 | h0
    · rw [h0]
      have e1 : ((0 : Nat) + era * 400 - 1) / 400 = era - 1 := by omega
      rw [e1]
      have e2 : ((0 : Nat) + era * 400 - 1 - (era - 1) * 400).toNat = 399 := by omega
      rw [e2]
      omega
    · have e1 : ((yoe : Int) + era * 400 - 1) / 400 = era := by omega
      rw [e1]
      have e2 : ((yoe : Int) + era * 400 - 1 - era * 400).toNat = yoe - 1 := by omega
      rw [e2]
      omega

/-- Go's Thursday shift lands on the Monday-started week's Thursday. -/
theorem goThursday_eq (z : Int) : goThursday z = mondayOfWeek z + 3 := by
  simp only [goThursday, goWeekday, mondayOfWeek, isoWeekdayS]
  split_ifs <;> omega

/-- With the epoch on a Thursday, Thursdays are the days divisible by 7. -/
theorem goThursday_mod (z : Int) : goThursday z % 7 = 0 := by
  simp only [goThursday, goWeekday]
  split_ifs <;> omega

/-- Go's `ISOWeek` algorithm computes the spec's first-Thursday-rule ISO
year and week. -/
theorem isoWeek_eq_spec (z : Int) :
    isoWeekOfDay z = (isoYearS z, isoWeekNumS z) := by
  have hmon : mondayOfWeek z + 3 = goThursday z := (goThursday_eq z).symm
  simp only [isoWeekOfDay, isoYearS, isoWeekNumS, hmon]
  refine Prod.ext rfl ?_
  have hmod := goThursday_mod z
  have hj := jan1_le (goThursday z)
  simp only [ydayOfDay, firstThursdayS, isoWeekdayS]
  omega

/-- C4: for every publish instant, the computed WeekKey is the ISO-8601
year and zero-padded ISO week (first-Thursday rule, Monday-start weeks) of
its UTC calendar day joined as `YYYY-WW`; in particular both
2024-12-30 and 2025-01-03 map to `"2025-01"`. -/
theorem c4_weekKey :
    (∀ t : GoTime, weekKeyOf t = weekKeySpec (dayOfUnix t.unix)) ∧
    weekKeyOf ⟨civilToDays 2024 12 30 * 86400, 0⟩ = "2025-01" ∧
    weekKeyOf ⟨civilToDays 2025 1 3 * 86400, 0⟩ = "2025-01" := by
  refine ⟨fun t => ?_, by decide, by decide⟩
  simp only [weekKeyOf, weekKeyOfDay, weekKeySpec, isoWeek_eq_spec]

/-! ## C9: string order of week keys vs chronological order -/

theorem lex_cons_iff (a b : Char) (l₁ l₂ : List Char) :
    List.Lex (· < ·) (a :: l₁) (b :: l₂) ↔
      a < b ∨ (a = b ∧ List.Lex (· < ·) l₁ l₂) := by
  constructor
  · intro h
    cases h with
    | cons h => exact Or.inr ⟨rfl, h⟩
    | rel h => exact Or.inl h
  · rintro (h | ⟨rfl, h⟩)
    · exact List.Lex.rel h
    · exact List.Lex.cons h

theorem charListLt_iff_lex (cs ds : List Char) :
    charListLt cs ds = true ↔ List.Lex (· < ·) cs ds := by
  induction cs generalizing ds with
  | nil =>
    cases ds with
    | nil =>
      simp only [charListLt]
      constructor
      · intro h; cases h
      · intro h; cases h
    | cons d ds =>
      simp only [charListLt]
      exact ⟨fun _ => List.Lex.nil, fun _ => trivial⟩
  | cons a as ih =>
    cases ds with
    | nil =>
      simp only [charListLt]
      constructor
      · intro h; simp at h
      · intro h; exact absurd h (List.Lex.not_nil_right _ _)
    | cons b bs =>
      simp only [charListLt]
      by_cases hab : a < b
      · simp only [if_pos hab]
        exact ⟨fun _ => List.Lex.rel hab, fun _ => trivial⟩
      · rw [if_neg hab]
        by_cases hba : b < a
        · simp only [if_pos hba]
          constructor
          · intro h; cases h
          · intro h
            rcases (lex_cons_iff a b as bs).mp h with h' | ⟨he, h'⟩
            · exact absurd h' hab
            · subst he; exact absurd hba (lt_irrefl a)
        · have heq : a = b := le_antisymm (not_lt.mp hba) (not_lt.mp hab)
          subst heq
          rw [if_neg hba, ih bs]
          exact List.Lex.cons_iff.symm

-- digit lemmas
theorem digitChar_lt_iff {a b : Nat} (ha : a < 10) (hb : b < 10) :
    (digitChar a < digitChar b) ↔ a < b := by
  interval_cases a <;> interval_cases b <;> simp [digitChar]

theorem digitChar_inj {a b : Nat} (ha : a < 10) (hb : b < 10)
    (h : digitChar a = digitChar b) : a = b := by
  interval_cases a <;> interval_cases b <;> first | rfl | (exfalso; revert h; decide)

theorem natDigitsAux_stable (f₁ f₂ n : Nat) (h₁ : n < f₁) (h₂ : n < f₂) :
    natDigitsAux f₁ n = natDigitsAux f₂ n := by
  induction f₁ generalizing f₂ n with
  | zero => omega
  | succ f₁ ih =>
    cases f₂ with
    | zero => omega
    | succ f₂ =>
      simp only [natDigitsAux]
      by_cases h : n < 10
      · simp [h]
      · rw [if_neg h, if_neg h, ih f₂ (n / 10) (by omega) (by omega)]

theorem natDigits_unfold (n : Nat) :
    natDigits n = if n < 10 then [digitChar n]
      else natDigits (n / 10) ++ [digitChar (n % 10)] := by
  show natDigitsAux (n + 1) n = _
  by_cases h : n < 10
  · simp [natDigitsAux, h]
  · simp only [natDigitsAux, if_neg h]
    rw [natDigitsAux_stable n (n / 10 + 1) (n / 10) (by omega) (by omega)]
    rfl

theorem natDigits_small {n : Nat} (h : n < 10) : natDigits n = [digitChar n] := by
  rw [natDigits_unfold, if_pos h]

theorem natDigits_length_pos (n : Nat) : 0 < (natDigits n).length := by
  rw [natDigits_unfold]
  by_cases h : n < 10 <;> simp [h]

theorem natDigits_length_big {n : Nat} (h : 10 ≤ n) :
    (natDigits n).length = (natDigits (n / 10)).length + 1 := by
  rw [natDigits_unfold, if_neg (by omega)]
  simp

theorem lex_append_iff (p₁ p₂ s₁ s₂ : List Char) (hlen : p₁.length = p₂.length) :
    List.Lex (· < ·) (p₁ ++ s₁) (p₂ ++ s₂) ↔
      List.Lex (· < ·) p₁ p₂ ∨ (p₁ = p₂ ∧ List.Lex (· < ·) s₁ s₂) := by
  induction p₁ generalizing p₂ with
  | nil =>
    cases p₂ with
    | nil => simp
    | cons b p₂ => simp at hlen
  | cons a p₁ ih =>
    cases p₂ with
    | nil => simp at hlen
    | cons b p₂ =>
      simp only [List.cons_append, lex_cons_iff, List.cons.injEq]
      rw [ih p₂ (by simpa using hlen)]
      constructor
      · rintro (h | ⟨rfl, h | ⟨rfl, h⟩⟩)
        · exact Or.inl (Or.inl h)
        · exact Or.inl (Or.inr ⟨rfl, h⟩)
        · exact Or.inr ⟨⟨rfl, rfl⟩, h⟩
      · rintro ((h | ⟨rfl, h⟩) | ⟨⟨rfl, rfl⟩, h⟩)
        · exact Or.inl h
        · exact Or.inr ⟨rfl, Or.inl h⟩
        · exact Or.inr ⟨rfl, Or.inr ⟨rfl, h⟩⟩

theorem natDigits_inj : ∀ a b : Nat, natDigits a = natDigits b → a = b := by
  intro a
  induction a using Nat.strong_induction_on with
  | _ a ih =>
    intro b h
    by_cases ha : a < 10 <;> by_cases hb : b < 10
    · rw [natDigits_small ha, natDigits_small hb] at h
      simp only [List.cons.injEq, and_true] at h
      exact digitChar_inj ha hb h
    · exfalso
      have hl := congrArg List.length h
      rw [natDigits_small ha, natDigits_length_big (show 10 ≤ b by omega)] at hl
      have hp := natDigits_length_pos (b / 10)
      simp only [List.length_singleton] at hl
      omega
    · exfalso
      have hl := congrArg List.length h
      rw [natDigits_small hb, natDigits_length_big (show 10 ≤ a by omega)] at hl
      have hp := natDigits_length_pos (a / 10)
      simp only [List.length_singleton] at hl
      omega
    · rw [natDigits_unfold a, if_neg ha, natDigits_unfold b, if_neg hb] at h
      have hlen : (natDigits (a / 10)).length = (natDigits (b / 10)).length := by
        have := congrArg List.length h
        simpa using this
      obtain ⟨h1, h2⟩ := List.append_inj h (by simpa using hlen)
      have hq : a / 10 = b / 10 := ih (a / 10) (by omega) (b / 10) h1
      have hr : a % 10 = b % 10 :=
        digitChar_inj (by omega) (by omega) (by simpa using h2)
      omega

theorem natDigits_lex_iff : ∀ a b : Nat,
    (natDigits a).length = (natDigits b).length →
    (List.Lex (· < ·) (natDigits a) (natDigits b) ↔ a < b) := by
  intro a
  induction a using Nat.strong_induction_on with
  | _ a ih =>
    intro b hlen
    by_cases ha : a < 10 <;> by_cases hb : b < 10
    · rw [natDigits_small ha, natDigits_small hb, List.Lex.singleton_iff]
      exact digitChar_lt_iff ha hb
    · exfalso
      rw [natDigits_small ha, natDigits_length_big (show 10 ≤ b by omega)] at hlen
      have hp := natDigits_length_pos (b / 10)
      simp only [List.length_singleton] at hlen
      omega
    · exfalso
      rw [natDigits_small hb, natDigits_length_big (show 10 ≤ a by omega)] at hlen
      have hp := natDigits_length_pos (a / 10)
      simp only [List.length_singleton] at hlen
      omega
    · rw [natDigits_unfold a, if_neg ha, natDigits_unfold b, if_neg hb]
      have hlen' : (natDigits (a / 10)).length = (natDigits (b / 10)).length := by
        rw [natDigits_length_big (show 10 ≤ a by omega),
            natDigits_length_big (show 10 ≤ b by omega)] at hlen
        omega
      rw [lex_append_iff _ _ _ _ hlen']
      rw [ih (a / 10) (by omega) (b / 10) hlen']
      constructor
      · rintro (h | ⟨he, h⟩)
        · omega
        · have hq : a / 10 = b / 10 := natDigits_inj _ _ he
          rw [List.Lex.singleton_iff] at h
          have := (digitChar_lt_iff (by omega) (by omega)).mp h
          omega
      · intro hab
        rcases Nat.lt_or_ge (a / 10) (b / 10) with hq | hq
        · exact Or.inl hq
        · have hq' : a / 10 = b / 10 := by omega
          refine Or.inr ⟨by rw [hq'], ?_⟩
          rw [List.Lex.singleton_iff]
          exact (digitChar_lt_iff (by omega) (by omega)).mpr (by omega)

theorem natDigits_len_le_of_le {a b : Nat} (h : a ≤ b) :
    (natDigits a).length ≤ (natDigits b).length := by
  induction b using Nat.strong_induction_on generalizing a with
  | _ b ih =>
    by_cases hb : b < 10
    · rw [natDigits_small (show a < 10 by omega), natDigits_small hb]
      exact Nat.le_refl _
    · by_cases ha : a < 10
      · rw [natDigits_small ha, natDigits_length_big (show 10 ≤ b by omega)]
        have := natDigits_length_pos (b / 10)
        simp only [List.length_singleton]
        omega
      · rw [natDigits_length_big (show 10 ≤ a by omega),
            natDigits_length_big (show 10 ≤ b by omega)]
        have := ih (b / 10) (by omega) (show a / 10 ≤ b / 10 by omega)
        omega

theorem padNat2_small {w : Nat} (h : w < 10) : padNat 2 w = ['0', digitChar w] := by
  unfold padNat
  rw [natDigits_small h]
  rfl

theorem natDigits_two {w : Nat} (h1 : 10 ≤ w) (h2 : w ≤ 99) :
    natDigits w = [digitChar (w / 10), digitChar (w % 10)] := by
  rw [natDigits_unfold, if_neg (by omega), natDigits_small (by omega)]
  rfl

theorem padNat2_big {w : Nat} (h1 : 10 ≤ w) (h2 : w ≤ 99) :
    padNat 2 w = natDigits w := by
  unfold padNat
  rw [natDigits_two h1 h2]
  rfl

theorem padNat2_lex_iff {w1 w2 : Nat} (h1 : w1 ≤ 99) (h2 : w2 ≤ 99) :
    List.Lex (· < ·) (padNat 2 w1) (padNat 2 w2) ↔ w1 < w2 := by
  have h0 : ('0' : Char) = digitChar 0 := rfl
  by_cases ha : w1 < 10 <;> by_cases hb : w2 < 10
  · rw [padNat2_small ha, padNat2_small hb, lex_cons_iff]
    constructor
    · rintro (h | ⟨-, h⟩)
      · exact absurd h (lt_irrefl '0')
      · rw [List.Lex.singleton_iff] at h
        exact (digitChar_lt_iff ha hb).mp h
    · intro h
      exact Or.inr ⟨rfl, (List.Lex.singleton_iff _ _).mpr
        ((digitChar_lt_iff ha hb).mpr h)⟩
  · rw [padNat2_small ha, padNat2_big (by omega) h2,
        natDigits_two (by omega) h2, lex_cons_iff]
    constructor
    · intro _
      omega
    · intro _
      refine Or.inl ?_
      rw [h0]
      exact (digitChar_lt_iff (by omega) (by omega)).mpr (by omega)
  · rw [padNat2_big (by omega) h1, padNat2_small hb,
        natDigits_two (by omega) h1, lex_cons_iff]
    constructor
    · rintro (h | ⟨he, -⟩)
      · rw [h0] at h
        have := (digitChar_lt_iff (by omega) (by omega)).mp h
        omega
      · rw [h0] at he
        have := digitChar_inj (by omega) (by omega) he
        omega
    · intro h
      omega
  · rw [padNat2_big (by omega) h1, padNat2_big (by omega) h2]
    apply natDigits_lex_iff
    rw [natDigits_two (by omega) h1, natDigits_two (by omega) h2]
    rfl

theorem pairKey_lt_iff (y1 w1 y2 w2 : Nat)
    (hw1 : w1 ≤ 99) (hw2 : w2 ≤ 99)
    (hlen : (natDigits y1).length = (natDigits y2).length) :
    (goStringLt (pairKey (y1, w1)) (pairKey (y2, w2)) = true ↔
      chronoLt (y1, w1) (y2, w2)) := by
  show charListLt (natDigits y1 ++ '-' :: padNat 2 w1)
      (natDigits y2 ++ '-' :: padNat 2 w2) = true ↔ _
  rw [charListLt_iff_lex, lex_append_iff _ _ _ _ hlen, lex_cons_iff,
      natDigits_lex_iff y1 y2 hlen, padNat2_lex_iff hw1 hw2]
  unfold chronoLt
  constructor
  · rintro (h | ⟨he, h | ⟨-, h⟩⟩)
    · exact Or.inl h
    · exact absurd h (lt_irrefl '-')
    · exact Or.inr ⟨natDigits_inj _ _ he, h⟩
  · rintro (h | ⟨he, h⟩)
    · exact Or.inl h
    · have he' : y1 = y2 := he
      exact Or.inr ⟨by rw [he'], Or.inr ⟨rfl, h⟩⟩

theorem charListLt_false_eq : ∀ cs ds : List Char,
    charListLt cs ds = false → charListLt ds cs = false → cs = ds
  | [], [], _, _ => rfl
  | [], _ :: _, h1, _ => by simp [charListLt] at h1
  | _ :: _, [], _, h2 => by simp [charListLt] at h2
  | c :: cs, d :: ds, h1, h2 => by
    simp only [charListLt] at h1 h2
    by_cases hcd : c < d
    · rw [if_pos hcd] at h1
      cases h1
    · by_cases hdc : d < c
      · rw [if_pos hdc] at h2
        cases h2
      · have he : c = d := le_antisymm (not_lt.mp hdc) (not_lt.mp hcd)
        subst he
        rw [if_neg hcd, if_neg hcd] at h1
        rw [if_neg hdc, if_neg hdc] at h2
        exact congrArg (c :: ·) (charListLt_false_eq cs ds h1 h2)

theorem charListLt_asymm : ∀ cs ds : List Char,
    charListLt cs ds = true → charListLt ds cs = false
  | [], [], h => by simp [charListLt] at h
  | [], _ :: _, _ => by simp [charListLt]
  | _ :: _, [], h => by simp [charListLt] at h
  | c :: cs, d :: ds, h => by
    simp only [charListLt] at h ⊢
    by_cases hcd : c < d
    · rw [if_neg (asymm hcd), if_pos hcd]
    · by_cases hdc : d < c
      · rw [if_neg hcd, if_pos hdc] at h
        cases h
      · have he : c = d := le_antisymm (not_lt.mp hdc) (not_lt.mp hcd)
        subst he
        rw [if_neg hcd, if_neg hdc] at h
        rw [if_neg hdc, if_neg hcd]
        exact charListLt_asymm cs ds h

theorem charListLt_trans : ∀ as bs cs : List Char,
    charListLt as bs = true → charListLt bs cs = true → charListLt as cs = true
  | [], bs, [], h1, h2 => by
    cases bs with
    | nil => simp [charListLt] at h1
    | cons b bs => simp [charListLt] at h2
  | [], _, _ :: _, _, _ => by simp [charListLt]
  | _ :: _, [], _, h1, _ => by simp [charListLt] at h1
  | _ :: _, _ :: _, [], _, h2 => by simp [charListLt] at h2
  | a :: as, b :: bs, c :: cs, h1, h2 => by
    simp only [charListLt] at h1 h2 ⊢
    by_cases hab : a < b
    · by_cases hbc : b < c
      · rw [if_pos (lt_trans hab hbc)]
      · by_cases hcb : c < b
        · rw [if_neg hbc, if_pos hcb] at h2
          cases h2
        · have he : b = c := le_antisymm (not_lt.mp hcb) (not_lt.mp hbc)
          subst he
          rw [if_pos hab]
    · by_cases hba : b < a
      · rw [if_neg hab, if_pos hba] at h1
        cases h1
      · have he : a = b := le_antisymm (not_lt.mp hba) (not_lt.mp hab)
        subst he
        rw [if_neg hab, if_neg hba] at h1
        by_cases hac : a < c
        · rw [if_pos hac]
        · by_cases hca : c < a
          · rw [if_neg hac, if_pos hca] at h2
            cases h2
          · have he2 : a = c := le_antisymm (not_lt.mp hca) (not_lt.mp hac)
            subst he2
            rw [if_neg hac, if_neg hca] at h2
            rw [if_neg hac, if_neg hca]
            exact charListLt_trans as bs cs h1 h2

instance : IsAntisymm String goStringLe :=
  ⟨fun a b h1 h2 => by
    have hd := charListLt_false_eq a.data b.data h2 h1
    cases a
    cases b
    exact congrArg String.mk hd⟩

instance : IsTotal String goStringLe :=
  ⟨fun a b => by
    unfold goStringLe goStringLt
    by_cases h : charListLt b.data a.data = true
    · right
      exact charListLt_asymm _ _ h
    · left
      exact Bool.not_eq_true _ ▸ h⟩

instance : IsTrans String goStringLe :=
  ⟨fun a b c h1 h2 => by
    unfold goStringLe goStringLt at *
    by_contra h
    rw [Bool.not_eq_false] at h
    by_cases hab : charListLt a.data b.data = true
    · have hh := charListLt_trans _ _ _ h hab
      rw [hh] at h2
      cases h2
    · have hba : charListLt b.data a.data = false := h1
      have heq := charListLt_false_eq a.data b.data
        (Bool.not_eq_true _ ▸ hab) hba
      rw [heq] at h
      rw [h] at h2
      cases h2⟩

/-- C9: for week keys made from years with equally many decimal digits,
Go's byte-wise string comparison agrees with chronological order of the
ISO (year, week) pairs; consequently `sort.Strings` followed by
`slices.Reverse` arranges the keys in descending chronological order
(it equals the chronologically descending sort of the pairs, mapped
through the key format). -/
theorem c9_lex :
    (∀ y1 w1 y2 w2 : Nat, 1 ≤ y1 → 1 ≤ y2 → w1 ≤ 53 → w2 ≤ 53 →
      (natDigits y1).length = (natDigits y2).length →
      (goStringLt (pairKey (y1, w1)) (pairKey (y2, w2)) = true ↔
        chronoLt (y1, w1) (y2, w2))) ∧
    (∀ ps : List (Nat × Nat),
      (∀ p ∈ ps, 1 ≤ p.1 ∧ p.2 ≤ 53) →
      (∀ p ∈ ps, ∀ q ∈ ps, (natDigits p.1).length = (natDigits q.1).length) →
      (sortStrings (ps.map pairKey)).reverse = (sortPairsDesc ps).map pairKey) := by
  constructor
  · intro y1 w1 y2 w2 hy1 hy2 hw1 hw2 hlen
    exact pairKey_lt_iff y1 w1 y2 w2 (by omega) (by omega) hlen
  · intro ps hp hlen
    unfold sortPairsDesc
    rw [List.map_reverse]
    congr 1
    have hperm : (sortStrings (ps.map pairKey)).Perm
        ((List.insertionSort chronoLe ps).map pairKey) :=
      (List.perm_insertionSort _ _).trans
        ((List.Perm.map pairKey (List.perm_insertionSort chronoLe ps)).symm)
    refine List.eq_of_perm_of_sorted hperm (List.sorted_insertionSort _ _) ?_
    have hs : List.Pairwise chronoLe (List.insertionSort chronoLe ps) :=
      List.sorted_insertionSort chronoLe ps
    have hs' : List.Pairwise
        (fun a b => goStringLe (pairKey a) (pairKey b))
        (List.insertionSort chronoLe ps) := by
      refine List.Pairwise.imp_of_mem ?_ hs
      intro a b ha hb hab
      have ha' : a ∈ ps := (List.perm_insertionSort chronoLe ps).subset ha
      have hb' : b ∈ ps := (List.perm_insertionSort chronoLe ps).subset hb
      unfold goStringLe
      by_contra hc
      rw [Bool.not_eq_false] at hc
      exact hab ((pairKey_lt_iff b.1 b.2 a.1 a.2
        (by have := (hp b hb').2; omega) (by have := (hp a ha').2; omega)
        (hlen b hb' a ha')).mp hc)
    exact hs'.map pairKey (fun a b h => h)

/-- Witness for C9 at the keys `2024-52`, `2025-01`, `2025-02`. -/
theorem c9_witness :
    ((1 ≤ 2024 ∧ 1 ≤ 2025 ∧ 52 ≤ 53 ∧ 1 ≤ 53 ∧
        (natDigits 2024).length = (natDigits 2025).length) ∧
      (goStringLt (pairKey (2024, 52)) (pairKey (2025, 1)) = true ↔
        chronoLt (2024, 52) (2025, 1))) ∧
    ((∀ p ∈ [((2025 : Nat), (1 : Nat)), (2024, 52), (2025, 2)],
        1 ≤ p.1 ∧ p.2 ≤ 53) ∧
      (sortStrings ([((2025 : Nat), (1 : Nat)), (2024, 52), (2025, 2)].map
          pairKey)).reverse =
        (sortPairsDesc [((2025 : Nat), (1 : Nat)), (2024, 52), (2025, 2)]).map
          pairKey) :=
  ⟨⟨by decide, c9_lex.1 2024 52 2025 1 (by decide) (by decide) (by decide)
      (by decide) (by decide)⟩,
   ⟨by decide, c9_lex.2 [((2025 : Nat), (1 : Nat)), (2024, 52), (2025, 2)]
      (by decide) (by decide)⟩⟩

end Paperboy
